import Mathlib

/-!
Verification of the extraction-cleanup-and-chunking pipeline of the
Academic Paper Token Splitter (src/app.py).

The in-scope logic of the program is embedded shallowly:

* text is modelled as `List Char`; the relevant ASCII fragments of Python's
  regex character classes `\s`, `\w` and `[a-z]` are modelled by
  `isSpaceChar`, `isWordChar` and `isLowerChar` (all inputs appearing in the
  claims are ASCII);
* the three `re.sub` calls of `clean_academic_text` (src/app.py lines
  113-120) are embedded as executable scanners (`collapseNewlines`,
  `wordMerge`, `hyphenMerge`) implementing the leftmost, non-overlapping,
  greedy match-and-replace semantics of the corresponding patterns;
* `str.split('\n')`, `str.strip()` and `'\n\n'.join` are embedded by
  `splitOnNl`, `pyStrip` and `joinLines`;
* the tiktoken encoder is external to the repository, so it is kept abstract
  as a `Encoding` structure (an encode/decode function pair); the chunking
  loop of `split_text_by_tokens` (lines 147-150) is embedded by
  `tokenWindows`;
* the Streamlit driver `main` (lines 215-365) is embedded by `mainPipeline`,
  which records which pipeline stages ran, making the order of extraction
  versus encoding-name validation observable.

The scanners that can skip ahead by more than one character per step
(`wordMergeGo`, `hyphenMergeGo`, `tokenWindowsGo`) use a structural fuel
argument initialised to the input length; every step consumes at least one
element, so the fuel never runs out on the initial call.
-/

set_option maxRecDepth 8000

/-- ASCII fragment of the character class matched by Python's regex `\s`
(space, tab, newline, carriage return, vertical tab, form feed); also the
set stripped by `str.strip()`. -/
def isSpaceChar (c : Char) : Bool :=
  c = ' ' || c = '\t' || c = '\n' || c = '\r' || c = '\x0b' || c = '\x0c'

/-- Character class `[a-z]` used by the word-merge regex on line 117. -/
def isLowerChar (c : Char) : Bool := c.isLower

/-- ASCII fragment of the character class matched by Python's regex `\w`:
letters, digits and underscore. -/
def isWordChar (c : Char) : Bool := c.isAlpha || c.isDigit || c = '_'

/-- Embedding of `re.sub(r'\n{3,}', '\n\n', text)` (src/app.py line 113):
every maximal run of three or more newlines is replaced by exactly two.
The scanner keeps the count `k` of newlines emitted in the current run and
drops any newline after the second one of a run. -/
def collapseGo : Nat → List Char → List Char
  | _, [] => []
  | k, c :: rest =>
    if c = '\n' then
      if k < 2 then '\n' :: collapseGo (k + 1) rest else collapseGo (k + 1) rest
    else
      c :: collapseGo 0 rest

/-- Step 1 of `clean_academic_text` (src/app.py line 113). -/
def collapseNewlines (l : List Char) : List Char := collapseGo 0 l

/-- Embedding of one scan step of
`re.sub(r'(\b[a-z]{2,})\s+([a-z]{2,}\b)', r'\1\2', text)`
(src/app.py line 117).  A match at the current position requires: the
previous character is not a word character (the leading `\b`; tracked by
`prevWord`), a maximal lowercase run of length at least 2 (group 1, greedy;
backtracking cannot shorten it because the following `\s+` would then see a
lowercase letter), a maximal whitespace run of length at least 1 (`\s+`,
greedy; backtracking cannot shorten it because `[a-z]` would then see a
whitespace character), a maximal lowercase run of length at least 2
(group 2), and a trailing word boundary (end of input or a non-word
character).  On a match the two groups are emitted without the separator
and scanning resumes after the match, exactly as `re.sub` does; otherwise
one character is emitted and scanning advances by one. -/
def wordMergeGo : Nat → Bool → List Char → List Char
  | 0, _, l => l
  | _ + 1, _, [] => []
  | fuel + 1, prevWord, c :: rest =>
    if prevWord = false ∧
        2 ≤ ((c :: rest).takeWhile isLowerChar).length ∧
        1 ≤ (((c :: rest).dropWhile isLowerChar).takeWhile isSpaceChar).length ∧
        2 ≤ ((((c :: rest).dropWhile isLowerChar).dropWhile isSpaceChar).takeWhile isLowerChar).length ∧
        (((((c :: rest).dropWhile isLowerChar).dropWhile isSpaceChar).dropWhile isLowerChar) = [] ∨
          isWordChar (((((c :: rest).dropWhile isLowerChar).dropWhile isSpaceChar).dropWhile isLowerChar).headD ' ') = false)
    then
      (c :: rest).takeWhile isLowerChar ++
        ((((c :: rest).dropWhile isLowerChar).dropWhile isSpaceChar).takeWhile isLowerChar) ++
        wordMergeGo fuel true ((((c :: rest).dropWhile isLowerChar).dropWhile isSpaceChar).dropWhile isLowerChar)
    else
      c :: wordMergeGo fuel (isWordChar c) rest

/-- Step 2 of `clean_academic_text` (src/app.py line 117): the word-merge
heuristic.  At the start of the string there is no preceding word
character, so `prevWord` starts `false`. -/
def wordMerge (l : List Char) : List Char := wordMergeGo l.length false l

/-- Embedding of one scan step of
`re.sub(r'(\w+)-\s*\n\s*(\w+)', r'\1\2', text)` (src/app.py line 120).
A match at the current position requires: a maximal word-character run of
length at least 1 (group 1, greedy; a shorter split would make the literal
hyphen face a word character), a literal hyphen, a maximal whitespace run
containing at least one newline (`\s*\n\s*` matches a whitespace string
exactly when it contains a newline, and it must consume the whole run
because the following `\w+` needs a word character), and a maximal
word-character run of length at least 1 (group 2).  On a match the two
groups are emitted and scanning resumes after the match; otherwise one
character is emitted and scanning advances by one. -/
def hyphenMergeGo : Nat → List Char → List Char
  | 0, l => l
  | _ + 1, [] => []
  | fuel + 1, c :: rest =>
    if 1 ≤ ((c :: rest).takeWhile isWordChar).length ∧
        ((c :: rest).dropWhile isWordChar).headD ' ' = '-' ∧
        '\n' ∈ (((c :: rest).dropWhile isWordChar).tail.takeWhile isSpaceChar) ∧
        1 ≤ ((((c :: rest).dropWhile isWordChar).tail.dropWhile isSpaceChar).takeWhile isWordChar).length
    then
      (c :: rest).takeWhile isWordChar ++
        ((((c :: rest).dropWhile isWordChar).tail.dropWhile isSpaceChar).takeWhile isWordChar) ++
        hyphenMergeGo fuel ((((c :: rest).dropWhile isWordChar).tail.dropWhile isSpaceChar).dropWhile isWordChar)
    else
      c :: hyphenMergeGo fuel rest

/-- Step 3 of `clean_academic_text` (src/app.py line 120): rejoin
hyphenated words broken across a line break. -/
def hyphenMerge (l : List Char) : List Char := hyphenMergeGo l.length l

/-- Embedding of Python `text.split('\n')` (src/app.py line 123): the
newline-separated pieces, including empty pieces between consecutive
newlines; splitting the empty string gives one empty piece. -/
def splitOnNl : List Char → List (List Char)
  | [] => [[]]
  | c :: rest =>
    if c = '\n' then
      [] :: splitOnNl rest
    else
      match splitOnNl rest with
      | [] => [[c]]
      | h :: t => (c :: h) :: t

/-- Embedding of Python `line.strip()` (src/app.py line 123): remove
whitespace from both ends. -/
def pyStrip (l : List Char) : List Char :=
  ((l.dropWhile isSpaceChar).reverse.dropWhile isSpaceChar).reverse

/-- Embedding of Python `'\n\n'.join(lines)` (src/app.py line 126). -/
def joinLines : List (List Char) → List Char
  | [] => []
  | [l] => l
  | l :: rest => l ++ '\n' :: '\n' :: joinLines rest

/-- Embedding of src/app.py lines 122-126: strip every line, drop the empty
ones, and rejoin the survivors with a blank line between them. -/
def stripJoinLines (l : List Char) : List Char :=
  joinLines (((splitOnNl l).map pyStrip).filter (fun s => !s.isEmpty))

/-- Embedding of `clean_academic_text` (src/app.py lines 104-128): the
three regex substitutions followed by the per-line strip-and-rejoin. -/
def clean_academic_text (text : List Char) : List Char :=
  stripJoinLines (hyphenMerge (wordMerge (collapseNewlines text)))

/-- Decides whether a text contains a run of three or more consecutive
newlines, the configuration matched by the regex on src/app.py line 113.
Used to state the normalized-text invariant. -/
def hasTripleNl : List Char → Bool
  | a :: b :: c :: rest =>
    (a = '\n' && b = '\n' && c = '\n') || hasTripleNl (b :: c :: rest)
  | _ => false

/-- Abstract model of a tiktoken encoding, which is external to the
repository: a pair of encode and decode functions between text and token
sequences (token IDs are natural numbers). -/
structure Encoding where
  encode : List Char → List Nat
  decode : List Nat → List Char

/-- Embedding of `count_tokens` (src/app.py lines 130-135), with the
encoding already looked up: `len(encoding.encode(text))`. -/
def count_tokens (enc : Encoding) (text : List Char) : Nat :=
  (enc.encode text).length

/-- Embedding of the chunking loop of `split_text_by_tokens` (src/app.py
lines 147-150): `for i in range(0, len(tokens), max_tokens)` slices
`tokens[i:i + max_tokens]`.  Each step peels off the first `maxTokens`
tokens.  The claims only concern `maxTokens ≥ 1`; Python raises
`ValueError` for a zero step, so that case never arises. -/
def tokenWindowsGo : Nat → List Nat → Nat → List (List Nat)
  | 0, _, _ => []
  | _ + 1, [], _ => []
  | fuel + 1, t :: ts, maxTokens =>
    ((t :: ts).take maxTokens) :: tokenWindowsGo fuel ((t :: ts).drop maxTokens) maxTokens

/-- Token windows produced by `split_text_by_tokens` for a given token
sequence (src/app.py lines 147-150). -/
def tokenWindows (tokens : List Nat) (maxTokens : Nat) : List (List Nat) :=
  tokenWindowsGo tokens.length tokens maxTokens

/-- Embedding of `split_text_by_tokens` (src/app.py lines 137-152): encode
the text, slice the token sequence into consecutive windows of size
`maxTokens`, decode each window independently. -/
def split_text_by_tokens (enc : Encoding) (text : List Char) (maxTokens : Nat) : List (List Char) :=
  (tokenWindows (enc.encode text) maxTokens).map enc.decode

/-- Embedding of `extract_text_from_academic_pdf` (src/app.py lines
75-102).  PDF parsing is external (PyMuPDF); its outcome is modelled as
`Option (List (List Char))`: `some pages` is a successful parse giving the
per-page raw text, `none` is any parse failure (whole-document open or any
per-page extraction raising).  The `except` branch on lines 100-102 shows a
UI error and returns the empty string; the success path cleans each page,
appends the non-blank ones followed by a blank line, and strips the
result. -/
def extract_text_from_academic_pdf (parse : Option (List (List Char))) : List Char :=
  match parse with
  | none => []
  | some pages =>
    pyStrip (pages.foldl
      (fun fullText page =>
        if !(pyStrip (clean_academic_text page)).isEmpty then
          fullText ++ clean_academic_text page ++ '\n' :: '\n' :: []
        else
          fullText)
      [])

/-- Pipeline stages of `main` (src/app.py lines 215-365), in the order the
code runs them: text extraction (line 227, which includes per-page
cleaning), token counting (line 236, the first `tiktoken.get_encoding`
call), and chunking (line 252). -/
inductive Stage where
  | extraction : Stage
  | tokenCounting : Stage
  | chunking : Stage
deriving DecidableEq

/-- Terminal error outcomes of one request in `main`: extraction produced
no text (lines 230-232, which stop the request), or the requested encoding
name is unknown to the encoder (the `ValueError` raised by
`tiktoken.get_encoding` inside `count_tokens`, caught by the handler on
lines 363-365; the spec calls this `UnknownEncodingError`). -/
inductive PipelineError where
  | emptyExtraction : PipelineError
  | unknownEncoding : String → PipelineError
deriving DecidableEq

/-- Embedding of one document request in `main` (src/app.py lines 215-365),
abstracted over the encoder registry `table` (tiktoken is external).  The
returned list records which stages ran, in order; the `Except` value is the
chunk list or the terminal error.  Extraction runs first (line 227); only
afterwards is the encoding name first given to `tiktoken.get_encoding`
(line 236 via `count_tokens`), so an unknown name fails after extraction,
with no chunk output. -/
def mainPipeline (table : String → Option Encoding) (parse : Option (List (List Char)))
    (encodingName : String) (maxTokens : Nat) :
    List Stage × Except PipelineError (List (List Char)) :=
  match extract_text_from_academic_pdf parse with
  | [] => ([Stage.extraction], Except.error PipelineError.emptyExtraction)
  | t :: ts =>
    match table encodingName with
    | none => ([Stage.extraction], Except.error (PipelineError.unknownEncoding encodingName))
    | some enc =>
      ([Stage.extraction, Stage.tokenCounting, Stage.chunking],
        Except.ok (split_text_by_tokens enc (t :: ts) maxTokens))

/-- Concrete stand-in encoding used to instantiate witnesses: one token per
character, the token ID being the code point.  The real tiktoken BPE tables
are external to the repository; every theorem below that involves an
encoding is proved for an arbitrary `Encoding`. -/
def charEncoding : Encoding where
  encode := fun l => l.map Char.toNat
  decode := fun l => l.map Char.ofNat

/-- Names offered by the encoding selector of the app (src/app.py lines
183-188), which is the supported set named by the spec. -/
def supportedEncodingNames : List String := ["cl100k_base", "p50k_base", "r50k_base"]

/-- Concrete encoder registry used in closed counterexamples and witnesses:
exactly the supported names resolve, everything else is unknown. -/
def supportedTable : String → Option Encoding := fun name =>
  if name ∈ supportedEncodingNames then some charEncoding else none

/-! ### Helper lemmas about `takeWhile`, `dropWhile`, `pyStrip` and the
character classes. -/

theorem takeWhile_eq_self_of_all {α : Type _} {p : α → Bool} :
    ∀ {l : List α}, (∀ x ∈ l, p x = true) → l.takeWhile p = l := by
  intro l
  induction l with
  | nil => intro _; rfl
  | cons c t ih =>
    intro h
    rw [List.takeWhile_cons_of_pos (h c (List.mem_cons_self c t)),
      ih (fun x hx => h x (List.mem_cons_of_mem c hx))]

theorem dropWhile_eq_nil_of_all {α : Type _} {p : α → Bool} :
    ∀ {l : List α}, (∀ x ∈ l, p x = true) → l.dropWhile p = [] := by
  intro l
  induction l with
  | nil => intro _; rfl
  | cons c t ih =>
    intro h
    rw [List.dropWhile_cons_of_pos (h c (List.mem_cons_self c t))]
    exact ih (fun x hx => h x (List.mem_cons_of_mem c hx))

theorem takeWhile_cons_neg {α : Type _} {p : α → Bool} {c : α} (l : List α)
    (h : p c = false) : (c :: l).takeWhile p = [] := by
  apply List.takeWhile_cons_of_neg
  simp [h]

theorem dropWhile_cons_neg {α : Type _} {p : α → Bool} {c : α} (l : List α)
    (h : p c = false) : (c :: l).dropWhile p = c :: l := by
  apply List.dropWhile_cons_of_neg
  simp [h]

theorem takeWhile_append_of_all {α : Type _} {p : α → Bool} :
    ∀ {a : List α} (r : List α), (∀ x ∈ a, p x = true) →
      (a ++ r).takeWhile p = a ++ r.takeWhile p := by
  intro a
  induction a with
  | nil => intro r _; rfl
  | cons c t ih =>
    intro r h
    rw [List.cons_append, List.takeWhile_cons_of_pos (h c (List.mem_cons_self c t)),
      ih r (fun x hx => h x (List.mem_cons_of_mem c hx)), List.cons_append]

theorem dropWhile_append_of_all {α : Type _} {p : α → Bool} :
    ∀ {a : List α} (r : List α), (∀ x ∈ a, p x = true) →
      (a ++ r).dropWhile p = r.dropWhile p := by
  intro a
  induction a with
  | nil => intro r _; rfl
  | cons c t ih =>
    intro r h
    rw [List.cons_append, List.dropWhile_cons_of_pos (h c (List.mem_cons_self c t))]
    exact ih r (fun x hx => h x (List.mem_cons_of_mem c hx))

theorem dropWhile_idem {α : Type _} {p : α → Bool} (l : List α) :
    (l.dropWhile p).dropWhile p = l.dropWhile p := by
  induction l with
  | nil => rfl
  | cons c t ih =>
    cases hc : p c with
    | true =>
      rw [List.dropWhile_cons_of_pos (by simp [hc])]
      exact ih
    | false =>
      rw [dropWhile_cons_neg t hc, dropWhile_cons_neg t hc]

theorem dropWhile_append_singleton {α : Type _} {p : α → Bool} {a : α}
    (h : p a = false) : ∀ (l : List α), (l ++ [a]).dropWhile p = l.dropWhile p ++ [a] := by
  intro l
  induction l with
  | nil =>
    rw [List.nil_append, dropWhile_cons_neg [] h]
    rfl
  | cons c t ih =>
    cases hc : p c with
    | true =>
      rw [List.cons_append, List.dropWhile_cons_of_pos (by simp [hc]),
        List.dropWhile_cons_of_pos (by simp [hc])]
      exact ih
    | false =>
      rw [List.cons_append, dropWhile_cons_neg _ hc, dropWhile_cons_neg t hc, List.cons_append]

theorem head_dropWhile_neg {α : Type _} {p : α → Bool} :
    ∀ {l : List α} {c : α} {t : List α}, l.dropWhile p = c :: t → p c = false := by
  intro l
  induction l with
  | nil => intro c t h; cases h
  | cons d r ih =>
    intro c t h
    cases hd : p d with
    | true =>
      rw [List.dropWhile_cons_of_pos (by simp [hd])] at h
      exact ih h
    | false =>
      rw [dropWhile_cons_neg r hd] at h
      cases h
      exact hd

theorem mem_of_mem_dropWhile {α : Type _} {p : α → Bool} {x : α} :
    ∀ {l : List α}, x ∈ l.dropWhile p → x ∈ l := by
  intro l
  induction l with
  | nil => intro h; exact h
  | cons c t ih =>
    intro h
    cases hc : p c with
    | true =>
      rw [List.dropWhile_cons_of_pos (by simp [hc])] at h
      exact List.mem_cons_of_mem c (ih h)
    | false =>
      rw [dropWhile_cons_neg t hc] at h
      exact h

theorem pyStrip_nil : pyStrip [] = [] := rfl

theorem pyStrip_idem (l : List Char) : pyStrip (pyStrip l) = pyStrip l := by
  cases hA : l.dropWhile isSpaceChar with
  | nil =>
    have h1 : pyStrip l = [] := by unfold pyStrip; rw [hA]; rfl
    rw [h1]; rfl
  | cons a A2 =>
    have ha : isSpaceChar a = false := head_dropWhile_neg hA
    have h1 : pyStrip l = a :: (A2.reverse.dropWhile isSpaceChar).reverse := by
      unfold pyStrip
      rw [hA, List.reverse_cons, dropWhile_append_singleton ha, List.reverse_append]
      rfl
    rw [h1]
    unfold pyStrip
    rw [dropWhile_cons_neg _ ha, List.reverse_cons, List.reverse_reverse,
      dropWhile_append_singleton ha, dropWhile_idem, List.reverse_append]
    rfl

theorem mem_pyStrip {x : Char} {l : List Char} (h : x ∈ pyStrip l) : x ∈ l := by
  unfold pyStrip at h
  rw [List.mem_reverse] at h
  have h2 := mem_of_mem_dropWhile h
  rw [List.mem_reverse] at h2
  exact mem_of_mem_dropWhile h2

theorem space_cases {c : Char} (h : isSpaceChar c = true) :
    c = ' ' ∨ c = '\t' ∨ c = '\n' ∨ c = '\r' ∨ c = '\x0b' ∨ c = '\x0c' := by
  simpa [isSpaceChar, Bool.or_eq_true, decide_eq_true_eq, or_assoc] using h

theorem space_not_lower {c : Char} (h : isSpaceChar c = true) : isLowerChar c = false := by
  rcases space_cases h with h | h | h | h | h | h <;> subst h <;> rfl

theorem space_not_word {c : Char} (h : isSpaceChar c = true) : isWordChar c = false := by
  rcases space_cases h with h | h | h | h | h | h <;> subst h <;> rfl

theorem lower_not_space {c : Char} (h : isLowerChar c = true) : isSpaceChar c = false := by
  cases hs : isSpaceChar c with
  | false => rfl
  | true => rw [space_not_lower hs] at h; cases h

theorem word_not_space {c : Char} (h : isWordChar c = true) : isSpaceChar c = false := by
  cases hs : isSpaceChar c with
  | false => rfl
  | true => rw [space_not_word hs] at h; cases h

theorem lower_word {c : Char} (h : isLowerChar c = true) : isWordChar c = true := by
  have h2 : c.isLower = true := h
  simp [isWordChar, Char.isAlpha, h2]

/-! ### Structure of `splitOnNl`, `joinLines` and `hasTripleNl`. -/

theorem not_isEmpty_of_ne_nil {α : Type _} {l : List α} (h : l ≠ []) : (!l.isEmpty) = true := by
  cases l with
  | nil => exact absurd rfl h
  | cons c t => rfl

theorem splitOnNl_ne_nil : ∀ (l : List Char), splitOnNl l ≠ [] := by
  intro l
  induction l with
  | nil => intro h; cases h
  | cons c rest ih =>
    by_cases hc : c = '\n'
    · simp [splitOnNl, hc]
    · simp only [splitOnNl, if_neg hc]
      cases hs : splitOnNl rest with
      | nil => intro h; cases h
      | cons h0 t0 => intro h; cases h

theorem splitOnNl_nl (r : List Char) : splitOnNl ('\n' :: r) = [] :: splitOnNl r := by
  simp [splitOnNl]

theorem splitOnNl_of_no_nl : ∀ {a : List Char}, (∀ x ∈ a, x ≠ '\n') → splitOnNl a = [a] := by
  intro a
  induction a with
  | nil => intro _; rfl
  | cons c a2 ih =>
    intro h
    have hc : c ≠ '\n' := h c (List.mem_cons_self c a2)
    simp only [splitOnNl, if_neg hc]
    rw [ih (fun x hx => h x (List.mem_cons_of_mem c hx))]

theorem splitOnNl_append : ∀ {a : List Char} (r : List Char), (∀ x ∈ a, x ≠ '\n') →
    splitOnNl (a ++ '\n' :: r) = a :: splitOnNl r := by
  intro a
  induction a with
  | nil => intro r _; exact splitOnNl_nl r
  | cons c a2 ih =>
    intro r h
    have hc : c ≠ '\n' := h c (List.mem_cons_self c a2)
    rw [List.cons_append]
    simp only [splitOnNl, if_neg hc]
    rw [ih r (fun x hx => h x (List.mem_cons_of_mem c hx))]

theorem splitOnNl_pieces_no_nl : ∀ (l : List Char), ∀ p ∈ splitOnNl l, ∀ c ∈ p, c ≠ '\n' := by
  intro l
  induction l with
  | nil =>
    intro p hp c hc
    rw [show splitOnNl [] = [[]] from rfl] at hp
    rcases List.mem_singleton.mp hp with rfl
    cases hc
  | cons d rest ih =>
    intro p hp c hc
    by_cases hd : d = '\n'
    · subst hd
      rw [splitOnNl_nl] at hp
      rcases List.mem_cons.mp hp with rfl | hp2
      · cases hc
      · exact ih p hp2 c hc
    · simp only [splitOnNl, if_neg hd] at hp
      cases hs : splitOnNl rest with
      | nil => exact absurd hs (splitOnNl_ne_nil rest)
      | cons h0 t0 =>
        rw [hs] at hp
        rcases List.mem_cons.mp hp with rfl | hp2
        · rcases List.mem_cons.mp hc with rfl | hc2
          · exact hd
          · exact ih h0 (hs ▸ List.mem_cons_self h0 t0) c hc2
        · exact ih p (hs ▸ List.mem_cons_of_mem h0 hp2) c hc

theorem joinLines_cons_cons (a b : List Char) (r : List (List Char)) :
    joinLines (a :: b :: r) = a ++ '\n' :: '\n' :: joinLines (b :: r) := rfl

theorem joinLines_head_prefix (b : List Char) (r : List (List Char)) :
    ∃ X, joinLines (b :: r) = b ++ X := by
  cases r with
  | nil => exact ⟨[], (List.append_nil b).symm⟩
  | cons c r2 => exact ⟨'\n' :: '\n' :: joinLines (c :: r2), rfl⟩

theorem hasTripleNl_cons_neg {c : Char} (t : List Char) (h : c ≠ '\n') :
    hasTripleNl (c :: t) = hasTripleNl t := by
  cases t with
  | nil => rfl
  | cons b t2 =>
    cases t2 with
    | nil => rfl
    | cons d t3 => simp [hasTripleNl, h]

theorem hasTripleNl_tail {c : Char} {t : List Char} (h : hasTripleNl (c :: t) = false) :
    hasTripleNl t = false := by
  cases t with
  | nil => rfl
  | cons b t2 =>
    cases t2 with
    | nil => rfl
    | cons d t3 =>
      rw [show hasTripleNl (c :: b :: d :: t3) =
        ((c = '\n' && b = '\n' && d = '\n') || hasTripleNl (b :: d :: t3)) from rfl] at h
      exact (Bool.or_eq_false_iff.mp h).2

theorem hasTripleNl_append_no_nl : ∀ {a : List Char} (r : List Char), (∀ x ∈ a, x ≠ '\n') →
    hasTripleNl (a ++ r) = hasTripleNl r := by
  intro a
  induction a with
  | nil => intro r _; rfl
  | cons c a2 ih =>
    intro r h
    rw [List.cons_append, hasTripleNl_cons_neg _ (h c (List.mem_cons_self c a2))]
    exact ih r (fun x hx => h x (List.mem_cons_of_mem c hx))

theorem hasTripleNl_two_nl (r : List Char) (hr : ∀ d t2, r = d :: t2 → d ≠ '\n') :
    hasTripleNl ('\n' :: '\n' :: r) = hasTripleNl r := by
  cases r with
  | nil => rfl
  | cons d t2 =>
    have hd : d ≠ '\n' := hr d t2 rfl
    cases t2 with
    | nil => simp [hasTripleNl, hd]
    | cons e t3 => simp [hasTripleNl, hd]

/-! ### The output of the strip-and-rejoin stage: its lines are exactly the
kept pieces, it has no triple-newline run, and it is a fixpoint of both the
strip-and-rejoin stage and the newline-collapsing stage. -/

theorem stripJoin_recovers_pieces :
    ∀ (ls : List (List Char)),
      (∀ l ∈ ls, l ≠ [] ∧ pyStrip l = l ∧ ∀ c ∈ l, c ≠ '\n') →
      ((splitOnNl (joinLines ls)).map pyStrip).filter (fun s => !s.isEmpty) = ls := by
  intro ls
  induction ls with
  | nil => intro _; rfl
  | cons a tail ih =>
    intro h
    obtain ⟨hne, hstr, hnl⟩ := h a (List.mem_cons_self a tail)
    cases tail with
    | nil =>
      rw [show joinLines [a] = a from rfl, splitOnNl_of_no_nl hnl, List.map_cons,
        List.map_nil, hstr, List.filter_cons]
      rw [not_isEmpty_of_ne_nil hne]
      rfl
    | cons b r =>
      have hbr : ∀ l ∈ b :: r, l ≠ [] ∧ pyStrip l = l ∧ ∀ c ∈ l, c ≠ '\n' :=
        fun l hl => h l (List.mem_cons_of_mem a hl)
      rw [joinLines_cons_cons, splitOnNl_append ('\n' :: joinLines (b :: r)) hnl,
        splitOnNl_nl, List.map_cons, List.map_cons, hstr, pyStrip_nil, List.filter_cons,
        not_isEmpty_of_ne_nil hne]
      simp only [if_true]
      rw [List.filter_cons, if_neg (by decide), ih hbr]

theorem stripJoin_lines_stripped :
    ∀ (ls : List (List Char)),
      (∀ l ∈ ls, l ≠ [] ∧ pyStrip l = l ∧ ∀ c ∈ l, c ≠ '\n') →
      ∀ l ∈ splitOnNl (joinLines ls), pyStrip l = l := by
  intro ls
  induction ls with
  | nil =>
    intro _ l hl
    rcases List.mem_singleton.mp hl with rfl
    rfl
  | cons a tail ih =>
    intro h l hl
    obtain ⟨hne, hstr, hnl⟩ := h a (List.mem_cons_self a tail)
    cases tail with
    | nil =>
      rw [show joinLines [a] = a from rfl, splitOnNl_of_no_nl hnl] at hl
      rcases List.mem_singleton.mp hl with rfl
      exact hstr
    | cons b r =>
      have hbr : ∀ x ∈ b :: r, x ≠ [] ∧ pyStrip x = x ∧ ∀ c ∈ x, c ≠ '\n' :=
        fun x hx => h x (List.mem_cons_of_mem a hx)
      rw [joinLines_cons_cons, splitOnNl_append ('\n' :: joinLines (b :: r)) hnl,
        splitOnNl_nl] at hl
      rcases List.mem_cons.mp hl with rfl | hl2
      · exact hstr
      · rcases List.mem_cons.mp hl2 with rfl | hl3
        · rfl
        · exact ih hbr l hl3

theorem joinLines_no_triple :
    ∀ (ls : List (List Char)),
      (∀ l ∈ ls, l ≠ [] ∧ pyStrip l = l ∧ ∀ c ∈ l, c ≠ '\n') →
      hasTripleNl (joinLines ls) = false := by
  intro ls
  induction ls with
  | nil => intro _; rfl
  | cons a tail ih =>
    intro h
    obtain ⟨hne, _, hnl⟩ := h a (List.mem_cons_self a tail)
    cases tail with
    | nil =>
      rw [show joinLines [a] = a from rfl, show a = a ++ [] from (List.append_nil a).symm,
        hasTripleNl_append_no_nl [] hnl]
      rfl
    | cons b r =>
      have hbr : ∀ x ∈ b :: r, x ≠ [] ∧ pyStrip x = x ∧ ∀ c ∈ x, c ≠ '\n' :=
        fun x hx => h x (List.mem_cons_of_mem a hx)
      obtain ⟨hbne, _, hbnl⟩ := hbr b (List.mem_cons_self b r)
      rw [joinLines_cons_cons, hasTripleNl_append_no_nl ('\n' :: '\n' :: joinLines (b :: r)) hnl]
      rw [hasTripleNl_two_nl (joinLines (b :: r))]
      · exact ih hbr
      · intro d t2 heq
        obtain ⟨X, hX⟩ := joinLines_head_prefix b r
        rw [hX] at heq
        cases b with
        | nil => exact absurd rfl hbne
        | cons y ys =>
          rw [List.cons_append] at heq
          injection heq with h1 _
          rw [← h1]
          exact hbnl y (List.mem_cons_self y ys)

theorem collapseGo_fix :
    ∀ (l : List Char), hasTripleNl l = false →
      collapseGo 0 l = l ∧
      ((∀ r, l ≠ '\n' :: '\n' :: r) → collapseGo 1 l = l) ∧
      ((∀ r, l ≠ '\n' :: r) → collapseGo 2 l = l) := by
  intro l
  induction l with
  | nil => intro _; exact ⟨rfl, fun _ => rfl, fun _ => rfl⟩
  | cons c rest ih =>
    intro h
    obtain ⟨ih0, ih1, ih2⟩ := ih (hasTripleNl_tail h)
    by_cases hc : c = '\n'
    · subst hc
      have hno2 : ∀ r, rest ≠ '\n' :: '\n' :: r := by
        intro r hr
        rw [hr] at h
        simp [hasTripleNl] at h
      refine ⟨?_, ?_, ?_⟩
      · rw [show collapseGo 0 ('\n' :: rest) = '\n' :: collapseGo 1 rest from by
          simp [collapseGo]]
        rw [ih1 hno2]
      · intro hl1
        rw [show collapseGo 1 ('\n' :: rest) = '\n' :: collapseGo 2 rest from by
          simp [collapseGo]]
        rw [ih2 (fun r hr => hl1 r (by rw [hr]))]
      · intro hl2
        exact absurd rfl (hl2 rest)
    · have hstep : ∀ k, collapseGo k (c :: rest) = c :: collapseGo 0 rest := by
        intro k
        simp [collapseGo, hc]
      exact ⟨by rw [hstep 0, ih0], fun _ => by rw [hstep 1, ih0], fun _ => by rw [hstep 2, ih0]⟩

theorem stripJoinLines_pieces_good (s : List Char) :
    ∀ l ∈ ((splitOnNl s).map pyStrip).filter (fun x => !x.isEmpty),
      l ≠ [] ∧ pyStrip l = l ∧ ∀ c ∈ l, c ≠ '\n' := by
  intro l hl
  rw [List.mem_filter] at hl
  obtain ⟨hmem, hkeep⟩ := hl
  rw [List.mem_map] at hmem
  obtain ⟨p, hp, rfl⟩ := hmem
  refine ⟨?_, pyStrip_idem p, ?_⟩
  · intro hnil
    rw [hnil] at hkeep
    cases hkeep
  · intro c hc
    exact splitOnNl_pieces_no_nl s p hp c (mem_pyStrip hc)

/-! ### Properties of the chunking loop. -/

theorem tokenWindowsGo_nil (fuel M : Nat) : tokenWindowsGo fuel [] M = [] := by
  cases fuel <;> rfl

theorem dropLast_cons_cons {α : Type _} (x y : α) (l : List α) :
    (x :: y :: l).dropLast = x :: (y :: l).dropLast := rfl

theorem tokenWindowsGo_flatten :
    ∀ (fuel : Nat) (l : List Nat) (M : Nat), 1 ≤ M → l.length ≤ fuel →
      (tokenWindowsGo fuel l M).flatten = l := by
  intro fuel
  induction fuel with
  | zero =>
    intro l M _ hlen
    have hl : l = [] := List.length_eq_zero.mp (Nat.le_zero.mp hlen)
    subst hl
    rfl
  | succ n ih =>
    intro l M hM hlen
    cases l with
    | nil => rfl
    | cons t ts =>
      rw [show tokenWindowsGo (n + 1) (t :: ts) M =
        ((t :: ts).take M) :: tokenWindowsGo n ((t :: ts).drop M) M from rfl]
      rw [List.flatten_cons, ih ((t :: ts).drop M) M hM (by
        simp only [List.length_drop, List.length_cons] at hlen ⊢
        omega)]
      exact List.take_append_drop M (t :: ts)

theorem tokenWindowsGo_window_le :
    ∀ (fuel : Nat) (l : List Nat) (M : Nat) (w : List Nat),
      w ∈ tokenWindowsGo fuel l M → w.length ≤ M := by
  intro fuel
  induction fuel with
  | zero => intro l M w hw; cases hw
  | succ n ih =>
    intro l M w hw
    cases l with
    | nil => cases hw
    | cons t ts =>
      rw [show tokenWindowsGo (n + 1) (t :: ts) M =
        ((t :: ts).take M) :: tokenWindowsGo n ((t :: ts).drop M) M from rfl] at hw
      rcases List.mem_cons.mp hw with rfl | hw2
      · rw [List.length_take]
        exact Nat.min_le_left M _
      · exact ih _ M w hw2

theorem tokenWindowsGo_dropLast_eq :
    ∀ (fuel : Nat) (l : List Nat) (M : Nat), 1 ≤ M → l.length ≤ fuel →
      ∀ w ∈ (tokenWindowsGo fuel l M).dropLast, w.length = M := by
  intro fuel
  induction fuel with
  | zero => intro l M _ _ w hw; cases hw
  | succ n ih =>
    intro l M hM hlen w hw
    cases l with
    | nil => cases hw
    | cons t ts =>
      rw [show tokenWindowsGo (n + 1) (t :: ts) M =
        ((t :: ts).take M) :: tokenWindowsGo n ((t :: ts).drop M) M from rfl] at hw
      cases hrest : tokenWindowsGo n ((t :: ts).drop M) M with
      | nil =>
        rw [hrest] at hw
        cases hw
      | cons w0 rs =>
        rw [hrest, dropLast_cons_cons] at hw
        have hdropne : (t :: ts).drop M ≠ [] := by
          intro hnil
          rw [hnil, tokenWindowsGo_nil] at hrest
          cases hrest
        have hMlt : M < (t :: ts).length := by
          rcases Nat.lt_or_ge M (t :: ts).length with h | h
          · exact h
          · exact absurd (List.drop_of_length_le h) hdropne
        rcases List.mem_cons.mp hw with rfl | hw2
        · rw [List.length_take]
          omega
        · rw [← hrest] at hw2
          exact ih _ M hM (by
            simp only [List.length_drop, List.length_cons] at hlen ⊢
            omega) w hw2

theorem tokenWindowsGo_length :
    ∀ (fuel : Nat) (l : List Nat) (M : Nat), 1 ≤ M → l.length ≤ fuel →
      (tokenWindowsGo fuel l M).length = (l.length + M - 1) / M := by
  intro fuel
  induction fuel with
  | zero =>
    intro l M hM hlen
    have hl : l = [] := List.length_eq_zero.mp (Nat.le_zero.mp hlen)
    subst hl
    rw [show tokenWindowsGo 0 ([] : List Nat) M = [] from rfl]
    simp only [List.length_nil]
    rw [show (0 : Nat) + M - 1 = M - 1 from by omega]
    exact (Nat.div_eq_of_lt (by omega)).symm
  | succ n ih =>
    intro l M hM hlen
    cases l with
    | nil =>
      rw [show tokenWindowsGo (n + 1) ([] : List Nat) M = [] from rfl]
      simp only [List.length_nil]
      rw [show (0 : Nat) + M - 1 = M - 1 from by omega]
      exact (Nat.div_eq_of_lt (by omega)).symm
    | cons t ts =>
      rw [show tokenWindowsGo (n + 1) (t :: ts) M =
        ((t :: ts).take M) :: tokenWindowsGo n ((t :: ts).drop M) M from rfl]
      rw [List.length_cons, ih ((t :: ts).drop M) M hM (by
        simp only [List.length_drop, List.length_cons] at hlen ⊢
        omega)]
      simp only [List.length_drop, List.length_cons]
      rcases Nat.lt_or_ge (ts.length + 1) M with hlt | hge
      · rw [show ts.length + 1 - M + M - 1 = M - 1 from by omega,
          Nat.div_eq_of_lt (show M - 1 < M from by omega),
          show ts.length + 1 + M - 1 = ts.length + M from by omega,
          Nat.add_div_right _ (show 0 < M from by omega),
          Nat.div_eq_of_lt (show ts.length < M from by omega)]
      · rw [show ts.length + 1 - M + M - 1 = ts.length from by omega,
          show ts.length + 1 + M - 1 = ts.length + M from by omega,
          Nat.add_div_right _ (show 0 < M from by omega)]

/-! ### One-step equations for the fuel scanners. -/

theorem wordMergeGo_nil (n : Nat) (pw : Bool) : wordMergeGo n pw [] = [] := by
  cases n <;> rfl

theorem hyphenMergeGo_nil (n : Nat) : hyphenMergeGo n [] = [] := by
  cases n <;> rfl

theorem wordMergeGo_step (fuel : Nat) (prevWord : Bool) (c : Char) (rest : List Char) :
    wordMergeGo (fuel + 1) prevWord (c :: rest) =
      if prevWord = false ∧
          2 ≤ ((c :: rest).takeWhile isLowerChar).length ∧
          1 ≤ (((c :: rest).dropWhile isLowerChar).takeWhile isSpaceChar).length ∧
          2 ≤ ((((c :: rest).dropWhile isLowerChar).dropWhile isSpaceChar).takeWhile isLowerChar).length ∧
          (((((c :: rest).dropWhile isLowerChar).dropWhile isSpaceChar).dropWhile isLowerChar) = [] ∨
            isWordChar (((((c :: rest).dropWhile isLowerChar).dropWhile isSpaceChar).dropWhile isLowerChar).headD ' ') = false)
      then
        (c :: rest).takeWhile isLowerChar ++
          ((((c :: rest).dropWhile isLowerChar).dropWhile isSpaceChar).takeWhile isLowerChar) ++
          wordMergeGo fuel true ((((c :: rest).dropWhile isLowerChar).dropWhile isSpaceChar).dropWhile isLowerChar)
      else
        c :: wordMergeGo fuel (isWordChar c) rest := rfl

theorem hyphenMergeGo_step (fuel : Nat) (c : Char) (rest : List Char) :
    hyphenMergeGo (fuel + 1) (c :: rest) =
      if 1 ≤ ((c :: rest).takeWhile isWordChar).length ∧
          ((c :: rest).dropWhile isWordChar).headD ' ' = '-' ∧
          '\n' ∈ (((c :: rest).dropWhile isWordChar).tail.takeWhile isSpaceChar) ∧
          1 ≤ ((((c :: rest).dropWhile isWordChar).tail.dropWhile isSpaceChar).takeWhile isWordChar).length
      then
        (c :: rest).takeWhile isWordChar ++
          ((((c :: rest).dropWhile isWordChar).tail.dropWhile isSpaceChar).takeWhile isWordChar) ++
          hyphenMergeGo fuel ((((c :: rest).dropWhile isWordChar).tail.dropWhile isSpaceChar).dropWhile isWordChar)
      else
        c :: hyphenMergeGo fuel rest := rfl

/-! ### Claim theorems. -/

/-- C1: Chunk partition.  For every encoding, every text and every
max_tokens at least 1, the chunker encodes the text and produces chunks by
decoding consecutive, non-overlapping token windows that cover the whole
token sequence: the chunk texts are exactly the decoded windows, and the
concatenation of the windows is the original token sequence, with no token
duplicated or dropped. -/
theorem chunk_windows_partition (enc : Encoding) (text : List Char) (M : Nat)
    (hM : 1 ≤ M) :
    split_text_by_tokens enc text M = (tokenWindows (enc.encode text) M).map enc.decode ∧
    (tokenWindows (enc.encode text) M).flatten = enc.encode text :=
  ⟨rfl, tokenWindowsGo_flatten (enc.encode text).length (enc.encode text) M hM (Nat.le_refl _)⟩

/-- Witness for chunk_windows_partition at a concrete encoding, text and
window size. -/
theorem chunk_windows_partition_witness :
    1 ≤ 2 ∧
    (split_text_by_tokens charEncoding "hello".toList 2 =
        (tokenWindows (charEncoding.encode "hello".toList) 2).map charEncoding.decode ∧
      (tokenWindows (charEncoding.encode "hello".toList) 2).flatten =
        charEncoding.encode "hello".toList) :=
  ⟨by decide, chunk_windows_partition charEncoding "hello".toList 2 (by decide)⟩

/-- C2: Size bound.  For every encoding, text and max_tokens at least 1,
every token window underlying a produced chunk has length at most
max_tokens, and every window except possibly the last has length exactly
max_tokens. -/
theorem chunk_size_bound (enc : Encoding) (text : List Char) (M : Nat) (hM : 1 ≤ M) :
    (∀ w ∈ tokenWindows (enc.encode text) M, w.length ≤ M) ∧
    (∀ w ∈ (tokenWindows (enc.encode text) M).dropLast, w.length = M) :=
  ⟨fun w hw => tokenWindowsGo_window_le _ _ M w hw,
   fun w hw => tokenWindowsGo_dropLast_eq _ _ M hM (Nat.le_refl _) w hw⟩

/-- Witness for chunk_size_bound at a concrete encoding, text and window
size. -/
theorem chunk_size_bound_witness :
    1 ≤ 3 ∧
    ((∀ w ∈ tokenWindows (charEncoding.encode "hello".toList) 3, w.length ≤ 3) ∧
      (∀ w ∈ (tokenWindows (charEncoding.encode "hello".toList) 3).dropLast, w.length = 3)) :=
  ⟨by decide, chunk_size_bound charEncoding "hello".toList 3 (by decide)⟩

/-- C4: Chunk count.  For every encoding, text and window size M at least
1, the number of chunks equals the ceiling of T divided by M, written
(T + M - 1) / M in natural division, where T is the token count; and if the
encoder sends empty text to the empty token sequence, the chunker returns
zero chunks for empty input, not one empty chunk. -/
theorem chunk_count_formula (enc : Encoding) (text : List Char) (M : Nat) (hM : 1 ≤ M) :
    (tokenWindows (enc.encode text) M).length = ((enc.encode text).length + M - 1) / M ∧
    (enc.encode [] = [] → split_text_by_tokens enc [] M = []) := by
  constructor
  · exact tokenWindowsGo_length _ _ M hM (Nat.le_refl _)
  · intro h0
    unfold split_text_by_tokens tokenWindows
    rw [h0]
    rfl

/-- Witness for chunk_count_formula at a concrete encoding, text and window
size. -/
theorem chunk_count_formula_witness :
    1 ≤ 2 ∧
    ((tokenWindows (charEncoding.encode "abcde".toList) 2).length =
        ((charEncoding.encode "abcde".toList).length + 2 - 1) / 2 ∧
      (charEncoding.encode [] = [] → split_text_by_tokens charEncoding [] 2 = [])) :=
  ⟨by decide, chunk_count_formula charEncoding "abcde".toList 2 (by decide)⟩

/-- C3 counterexample: on a parse failure the extractor does not surface an
error value to its caller; the except branch (src/app.py lines 100-102)
returns the empty string, so the extractor returns empty output, which the
claim says cannot happen. -/
theorem extractor_returns_empty_on_parse_failure :
    extract_text_from_academic_pdf none = [] := rfl

/-- C3 amended: on a parse failure the extractor swallows the exception and
returns the empty string, and the caller then treats the request as the
empty-extraction condition and halts, so no chunk output is produced; but
no extraction error reaches the caller, and a parse failure is
indistinguishable from a document with no extractable text. -/
theorem extractor_failure_yields_no_chunks (table : String → Option Encoding)
    (name : String) (M : Nat) :
    mainPipeline table none name M =
      ([Stage.extraction], Except.error PipelineError.emptyExtraction) := rfl

/-- C5 counterexample: the normalizer is not idempotent.  On "ab cd ef" one
application merges only the first pair, because re.sub matches are
non-overlapping, and a second application merges again. -/
theorem normalizer_not_idempotent :
    clean_academic_text "ab cd ef".toList = "abcd ef".toList ∧
    clean_academic_text "abcd ef".toList = "abcdef".toList ∧
    clean_academic_text (clean_academic_text "ab cd ef".toList) ≠
      clean_academic_text "ab cd ef".toList :=
  ⟨by decide, by decide, by decide⟩

/-- C5 amended: a second application of the normalizer performs no further
newline collapsing, because normalized text contains no run of three or
more newlines, so the collapse step is the identity on it; but both merge
steps can fire again on a second pass, the word-merge step on a fragment
pair created by a first merge and the hyphen-rejoin step on a hyphen that
a first rejoin left at a line end, so the normalizer as a whole is not
idempotent.  The hyphen cascade at a concrete input: one pass sends
"ab-", "cd-", "ef" on three lines to "abcd-" and "ef" on two, and a
second pass rejoins those to "abcdef". -/
theorem normalizer_second_pass_properties (t : List Char) :
    collapseNewlines (clean_academic_text t) = clean_academic_text t ∧
    clean_academic_text "ab-\ncd-\nef".toList = "abcd-\n\nef".toList ∧
    clean_academic_text "abcd-\n\nef".toList = "abcdef".toList := by
  refine ⟨?_, by decide, by decide⟩
  have hgood := stripJoinLines_pieces_good (hyphenMerge (wordMerge (collapseNewlines t)))
  have hnt : hasTripleNl (clean_academic_text t) = false := joinLines_no_triple _ hgood
  exact (collapseGo_fix _ hnt).1

/-- C6 (code bug): on the spec Scenario C input the normalizer returns
"random accessmemory", not "random access" followed by a blank line and
"memory": the word-merge regex separator \s+ also matches the blank line,
so "access" and "memory" are joined and the paragraph break is deleted,
contrary to the function docstring, which promises to keep paragraph
structure. -/
theorem scenario_c_actual_output :
    clean_academic_text "ran dom access\n\n\n\nmemory".toList =
      "random accessmemory".toList := by decide

/-- C9: Normalized-text invariant.  For every input, the normalizer output
contains no run of three or more consecutive newlines; every line of the
output is already stripped of leading and trailing whitespace; and
re-splitting the output into lines, stripping them, dropping the empty
ones and re-joining with a blank line reproduces the output unchanged. -/
theorem normalized_text_invariant (t : List Char) :
    hasTripleNl (clean_academic_text t) = false ∧
    (∀ l ∈ splitOnNl (clean_academic_text t), pyStrip l = l) ∧
    stripJoinLines (clean_academic_text t) = clean_academic_text t := by
  have hgood := stripJoinLines_pieces_good (hyphenMerge (wordMerge (collapseNewlines t)))
  refine ⟨joinLines_no_triple _ hgood, stripJoin_lines_stripped _ hgood, ?_⟩
  show stripJoinLines (stripJoinLines (hyphenMerge (wordMerge (collapseNewlines t)))) =
    stripJoinLines (hyphenMerge (wordMerge (collapseNewlines t)))
  unfold stripJoinLines
  rw [stripJoin_recovers_pieces _ hgood]

/-- C8 counterexample: with a registry that knows only the supported names,
a request with an unknown encoding name still performs the extraction work
first; the unknown-encoding failure is raised only afterwards, at the first
token-counting call (src/app.py line 236), contradicting the claim that
the failure precedes any extraction or text processing. -/
theorem unknown_encoding_fails_after_extraction :
    Stage.extraction ∈ (mainPipeline supportedTable (some ["hello".toList]) "bogus_base" 8192).1 ∧
    (mainPipeline supportedTable (some ["hello".toList]) "bogus_base" 8192).2 =
      Except.error (PipelineError.unknownEncoding "bogus_base") :=
  ⟨by decide, rfl⟩

/-- C8 amended: for every request whose encoding name is unknown to the
encoder registry and whose document yields nonempty extracted text, the
pipeline fails with the unknown-encoding error and produces no chunk
output, but only after extraction, including text normalization, has
already run. -/
theorem unknown_encoding_error_after_extraction (table : String → Option Encoding)
    (parse : Option (List (List Char))) (name : String) (M : Nat)
    (hname : table name = none) (hext : extract_text_from_academic_pdf parse ≠ []) :
    mainPipeline table parse name M =
      ([Stage.extraction], Except.error (PipelineError.unknownEncoding name)) := by
  cases hv : extract_text_from_academic_pdf parse with
  | nil => exact absurd hv hext
  | cons t ts =>
    unfold mainPipeline
    rw [hv, hname]

/-- Witness for unknown_encoding_error_after_extraction at a concrete
registry, parse result, name and window size. -/
theorem unknown_encoding_error_after_extraction_witness :
    (fun _ : String => (none : Option Encoding)) "foo" = none ∧
    extract_text_from_academic_pdf (some ["hi".toList]) ≠ [] ∧
    mainPipeline (fun _ : String => (none : Option Encoding)) (some ["hi".toList]) "foo" 4 =
      ([Stage.extraction], Except.error (PipelineError.unknownEncoding "foo")) :=
  ⟨rfl, by decide,
    unknown_encoding_error_after_extraction (fun _ => none) (some ["hi".toList]) "foo" 4 rfl
      (by decide)⟩

/-- C7 counterexample: fragments separated by more than a single space are
merged by the word-merge step after all, because the regex separator is
the whitespace class \s+ rather than a single space: two spaces and a
newline both trigger the merge. -/
theorem word_merge_joins_across_double_space :
    wordMerge "ab  cd".toList = "abcd".toList ∧
    wordMerge "ab\ncd".toList = "abcd".toList :=
  ⟨by decide, by decide⟩

/-- C7 amended: the word-merge step joins two adjacent fragments whenever
they are separated by a run of one or more whitespace characters of any
kind, single or multiple spaces, tabs or newlines included, and both
fragments are maximal lowercase alphabetic runs of length at least 2 at
word boundaries; fragments separated by non-whitespace are not merged. -/
theorem word_merge_any_whitespace_run (a w b : List Char)
    (ha : ∀ c ∈ a, isLowerChar c = true) (ha2 : 2 ≤ a.length)
    (hw : ∀ c ∈ w, isSpaceChar c = true) (hw1 : 1 ≤ w.length)
    (hb : ∀ c ∈ b, isLowerChar c = true) (hb2 : 2 ≤ b.length) :
    wordMerge (a ++ w ++ b) = a ++ b ∧
    wordMerge "ab!cd".toList = "ab!cd".toList := by
  refine ⟨?_, by decide⟩
  obtain ⟨a0, a1, rfl⟩ : ∃ a0 a1, a = a0 :: a1 := by
    cases a with
    | nil => exact absurd ha2 (by decide)
    | cons x xs => exact ⟨x, xs, rfl⟩
  obtain ⟨w0, w1, rfl⟩ : ∃ w0 w1, w = w0 :: w1 := by
    cases w with
    | nil => exact absurd hw1 (by decide)
    | cons x xs => exact ⟨x, xs, rfl⟩
  obtain ⟨b0, b1, rfl⟩ : ∃ b0 b1, b = b0 :: b1 := by
    cases b with
    | nil => exact absurd hb2 (by decide)
    | cons x xs => exact ⟨x, xs, rfl⟩
  have hw0 : isSpaceChar w0 = true := hw w0 (List.mem_cons_self w0 w1)
  have hb0 : isLowerChar b0 = true := hb b0 (List.mem_cons_self b0 b1)
  have tX : ((w0 :: w1) ++ (b0 :: b1)).takeWhile isLowerChar = [] := by
    rw [List.cons_append]
    exact takeWhile_cons_neg _ (space_not_lower hw0)
  have dX : ((w0 :: w1) ++ (b0 :: b1)).dropWhile isLowerChar = (w0 :: w1) ++ (b0 :: b1) := by
    rw [List.cons_append, dropWhile_cons_neg _ (space_not_lower hw0)]
  have e1 : (a0 :: (a1 ++ ((w0 :: w1) ++ (b0 :: b1)))).takeWhile isLowerChar = a0 :: a1 := by
    rw [← List.cons_append, takeWhile_append_of_all _ ha, tX, List.append_nil]
  have e2 : (a0 :: (a1 ++ ((w0 :: w1) ++ (b0 :: b1)))).dropWhile isLowerChar =
      (w0 :: w1) ++ (b0 :: b1) := by
    rw [← List.cons_append, dropWhile_append_of_all _ ha, dX]
  have e3 : ((w0 :: w1) ++ (b0 :: b1)).takeWhile isSpaceChar = w0 :: w1 := by
    rw [takeWhile_append_of_all _ hw, takeWhile_cons_neg _ (lower_not_space hb0),
      List.append_nil]
  have e4 : ((w0 :: w1) ++ (b0 :: b1)).dropWhile isSpaceChar = b0 :: b1 := by
    rw [dropWhile_append_of_all _ hw, dropWhile_cons_neg _ (lower_not_space hb0)]
  have e5 : (b0 :: b1).takeWhile isLowerChar = b0 :: b1 := takeWhile_eq_self_of_all hb
  have e6 : (b0 :: b1).dropWhile isLowerChar = [] := dropWhile_eq_nil_of_all hb
  rw [List.append_assoc]
  show wordMergeGo ((a1 ++ ((w0 :: w1) ++ (b0 :: b1))).length + 1) false
      (a0 :: (a1 ++ ((w0 :: w1) ++ (b0 :: b1)))) = (a0 :: a1) ++ (b0 :: b1)
  rw [wordMergeGo_step, e1, e2, e3, e4, e5, e6]
  rw [if_pos ⟨rfl, ha2, hw1, hb2, Or.inl rfl⟩, wordMergeGo_nil, List.append_nil]

/-- Witness for word_merge_any_whitespace_run at concrete fragments and a
concrete whitespace separator. -/
theorem word_merge_any_whitespace_run_witness :
    (∀ c ∈ "ran".toList, isLowerChar c = true) ∧ 2 ≤ "ran".toList.length ∧
    (∀ c ∈ [' '], isSpaceChar c = true) ∧ 1 ≤ ([' '] : List Char).length ∧
    (∀ c ∈ "dom".toList, isLowerChar c = true) ∧ 2 ≤ "dom".toList.length ∧
    (wordMerge ("ran".toList ++ [' '] ++ "dom".toList) = "ran".toList ++ "dom".toList ∧
      wordMerge "ab!cd".toList = "ab!cd".toList) :=
  ⟨by decide, by decide, by decide, by decide, by decide, by decide,
    word_merge_any_whitespace_run "ran".toList [' '] "dom".toList
      (by decide) (by decide) (by decide) (by decide) (by decide) (by decide)⟩

/-- C10: Hyphen rejoin across intervening whitespace.  The hyphen-rejoin
step merges a word-character run ending in a hyphen with the next
word-character run whenever the separating whitespace contains at least
one newline, including spaces before the newline and a full blank line
after the hyphen; the rule applies to uppercase letters and digits as well
as lowercase, and the normalizer maps "multi- " followed by a blank line
and " word" to "multiword". -/
theorem hyphen_rejoin_across_newline_whitespace (a w b : List Char)
    (ha : ∀ c ∈ a, isWordChar c = true) (ha1 : 1 ≤ a.length)
    (hw : ∀ c ∈ w, isSpaceChar c = true) (hwn : '\n' ∈ w)
    (hb : ∀ c ∈ b, isWordChar c = true) (hb1 : 1 ≤ b.length) :
    hyphenMerge (a ++ '-' :: (w ++ b)) = a ++ b ∧
    clean_academic_text "multi- \n\n word".toList = "multiword".toList ∧
    clean_academic_text "A1-\nB2".toList = "A1B2".toList := by
  refine ⟨?_, by decide, by decide⟩
  obtain ⟨a0, a1, rfl⟩ : ∃ a0 a1, a = a0 :: a1 := by
    cases a with
    | nil => exact absurd ha1 (by decide)
    | cons x xs => exact ⟨x, xs, rfl⟩
  obtain ⟨b0, b1, rfl⟩ : ∃ b0 b1, b = b0 :: b1 := by
    cases b with
    | nil => exact absurd hb1 (by decide)
    | cons x xs => exact ⟨x, xs, rfl⟩
  have hb0 : isWordChar b0 = true := hb b0 (List.mem_cons_self b0 b1)
  have e1 : (a0 :: (a1 ++ '-' :: (w ++ (b0 :: b1)))).takeWhile isWordChar = a0 :: a1 := by
    rw [← List.cons_append, takeWhile_append_of_all _ ha,
      takeWhile_cons_neg _ (show isWordChar '-' = false from rfl), List.append_nil]
  have e2 : (a0 :: (a1 ++ '-' :: (w ++ (b0 :: b1)))).dropWhile isWordChar =
      '-' :: (w ++ (b0 :: b1)) := by
    rw [← List.cons_append, dropWhile_append_of_all _ ha,
      dropWhile_cons_neg _ (show isWordChar '-' = false from rfl)]
  have e3 : (w ++ (b0 :: b1)).takeWhile isSpaceChar = w := by
    rw [takeWhile_append_of_all _ hw, takeWhile_cons_neg _ (word_not_space hb0),
      List.append_nil]
  have e4 : (w ++ (b0 :: b1)).dropWhile isSpaceChar = b0 :: b1 := by
    rw [dropWhile_append_of_all _ hw, dropWhile_cons_neg _ (word_not_space hb0)]
  have e5 : (b0 :: b1).takeWhile isWordChar = b0 :: b1 := takeWhile_eq_self_of_all hb
  have e6 : (b0 :: b1).dropWhile isWordChar = [] := dropWhile_eq_nil_of_all hb
  show hyphenMergeGo ((a1 ++ '-' :: (w ++ (b0 :: b1))).length + 1)
      (a0 :: (a1 ++ '-' :: (w ++ (b0 :: b1)))) = (a0 :: a1) ++ (b0 :: b1)
  rw [hyphenMergeGo_step, e1, e2, List.headD_cons, List.tail_cons, e3, e4, e5, e6]
  rw [if_pos ⟨ha1, rfl, hwn, hb1⟩, hyphenMergeGo_nil, List.append_nil]

/-- Witness for hyphen_rejoin_across_newline_whitespace at concrete word
runs and a blank-line separator with surrounding spaces. -/
theorem hyphen_rejoin_across_newline_whitespace_witness :
    (∀ c ∈ "multi".toList, isWordChar c = true) ∧ 1 ≤ "multi".toList.length ∧
    (∀ c ∈ [' ', '\n', '\n', ' '], isSpaceChar c = true) ∧
    '\n' ∈ ([' ', '\n', '\n', ' '] : List Char) ∧
    (∀ c ∈ "word".toList, isWordChar c = true) ∧ 1 ≤ "word".toList.length ∧
    (hyphenMerge ("multi".toList ++ '-' :: ([' ', '\n', '\n', ' '] ++ "word".toList)) =
        "multi".toList ++ "word".toList ∧
      clean_academic_text "multi- \n\n word".toList = "multiword".toList ∧
      clean_academic_text "A1-\nB2".toList = "A1B2".toList) :=
  ⟨by decide, by decide, by decide, by decide, by decide, by decide,
    hyphen_rejoin_across_newline_whitespace "multi".toList [' ', '\n', '\n', ' '] "word".toList
      (by decide) (by decide) (by decide) (by decide) (by decide) (by decide)⟩
